import Mathlib

/-!
Verification of the CAPTCHA text-recovery pipeline (OCR.py and the
captcha-solving controller of amazon_scraper.py) against its specification.
The Python code is shallowly embedded: images are finite grids of RGB
pixel values, the external recognition engine is an abstract capability
returning (text, parsed-confidence) pairs, and the solve-retry loop is a
step function driven by an abstract observation environment.
-/

namespace PFA

/-- An RGB pixel value, one natural number per channel. -/
abbrev Pix := ℕ × ℕ × ℕ

/-- A raster image: width, height and a pixel lookup function.
Only coordinates below the bounds are meaningful. -/
structure Img where
  w : ℕ
  h : ℕ
  px : ℕ → ℕ → Pix

/-- PIL-style crop with box (left, top, right, bottom). -/
def crop (left top right bottom : ℕ) (img : Img) : Img :=
  { w := right - left, h := bottom - top,
    px := fun x y => img.px (left + x) (top + y) }

@[simp] theorem crop_w (l t r b : ℕ) (img : Img) : (crop l t r b img).w = r - l := rfl

@[simp] theorem crop_h (l t r b : ℕ) (img : Img) : (crop l t r b img).h = b - t := rfl

@[simp] theorem crop_px (l t r b : ℕ) (img : Img) (x y : ℕ) :
    (crop l t r b img).px x y = img.px (l + x) (t + y) := rfl

/-- Pure white test: all three channels at 255, as in
np.all(img_array == [255,255,255], axis=-1). -/
def isWhite (p : Pix) : Bool := decide (p = (255, 255, 255))

/-- Row y is kept by the trimmer when it is not entirely white. -/
def rowHasInk (img : Img) (y : ℕ) : Bool :=
  (List.range img.w).any fun x => ! isWhite (img.px x y)

/-- Column x is kept by the trimmer when it is not entirely white. -/
def colHasInk (img : Img) (x : ℕ) : Bool :=
  (List.range img.h).any fun y => ! isWhite (img.px x y)

/-- Indices of the not-all-white rows, in increasing order
(np.where over axis 1). -/
def trimRows (img : Img) : List ℕ :=
  (List.range img.h).filter fun y => rowHasInk img y

/-- Indices of the not-all-white columns, in increasing order
(np.where over axis 0). -/
def trimCols (img : Img) : List ℕ :=
  (List.range img.w).filter fun x => colHasInk img x

/-- Embedding of _trim_whitespace: crop to the bounding box of the
non-white pixels, returning the image unchanged when no such pixel
exists.  rows[0] is headD, rows[-1] is reverse.headD. -/
def trim (img : Img) : Img :=
  if (trimRows img).isEmpty || (trimCols img).isEmpty then img
  else crop ((trimCols img).headD 0) ((trimRows img).headD 0)
    ((trimCols img).reverse.headD 0 + 1) ((trimRows img).reverse.headD 0 + 1) img

/-- Two images agree in size and in every in-bounds pixel. -/
def ImgEq (a b : Img) : Prop :=
  a.w = b.w ∧ a.h = b.h ∧ ∀ x, x < a.w → ∀ y, y < a.h → a.px x y = b.px x y

/-- The image has no pure-white border row or column. -/
def noWhiteBorder (img : Img) : Prop :=
  0 < img.w ∧ 0 < img.h ∧ rowHasInk img 0 = true ∧
    rowHasInk img (img.h - 1) = true ∧ colHasInk img 0 = true ∧
    colHasInk img (img.w - 1) = true

/-- Every in-bounds pixel is pure white. -/
def allWhite (img : Img) : Prop :=
  ∀ x, x < img.w → ∀ y, y < img.h → img.px x y = (255, 255, 255)

theorem rowHasInk_iff {img : Img} {y : ℕ} :
    rowHasInk img y = true ↔ ∃ x, x < img.w ∧ isWhite (img.px x y) = false := by
  simp [rowHasInk, List.any_eq_true, List.mem_range]

theorem colHasInk_iff {img : Img} {x : ℕ} :
    colHasInk img x = true ↔ ∃ y, y < img.h ∧ isWhite (img.px x y) = false := by
  simp [colHasInk, List.any_eq_true, List.mem_range]

theorem mem_trimRows {img : Img} {y : ℕ} :
    y ∈ trimRows img ↔ y < img.h ∧ rowHasInk img y = true := by
  simp [trimRows, List.mem_filter, List.mem_range]

theorem mem_trimCols {img : Img} {x : ℕ} :
    x ∈ trimCols img ↔ x < img.w ∧ colHasInk img x = true := by
  simp [trimCols, List.mem_filter, List.mem_range]

theorem filter_range_sorted (n : ℕ) (p : ℕ → Bool) :
    ((List.range n).filter p).Pairwise (· < ·) :=
  List.Pairwise.sublist (List.filter_sublist _) (List.pairwise_lt_range n)

theorem headD_mem {l : List ℕ} (h : l ≠ []) : l.headD 0 ∈ l := by
  cases l with
  | nil => exact absurd rfl h
  | cons a t => simp

theorem revHeadD_mem {l : List ℕ} (h : l ≠ []) : l.reverse.headD 0 ∈ l := by
  have hrev : l.reverse ≠ [] := by
    simpa using h
  exact List.mem_reverse.mp (headD_mem hrev)

theorem sorted_headD_le {l : List ℕ} (hs : l.Pairwise (· < ·)) {a : ℕ}
    (ha : a ∈ l) : l.headD 0 ≤ a := by
  cases l with
  | nil => cases ha
  | cons x xs =>
    rcases List.mem_cons.mp ha with rfl | hmem
    · simp
    · simpa using Nat.le_of_lt ((List.pairwise_cons.mp hs).1 a hmem)

theorem sorted_le_revHeadD {l : List ℕ} (hs : l.Pairwise (· < ·)) {a : ℕ}
    (ha : a ∈ l) : a ≤ l.reverse.headD 0 := by
  have hs' : l.reverse.Pairwise (fun u v => v < u) :=
    List.pairwise_reverse.mpr hs
  have ha' : a ∈ l.reverse := List.mem_reverse.mpr ha
  cases hrev : l.reverse with
  | nil => rw [hrev] at ha'; cases ha'
  | cons x xs =>
    rw [hrev] at ha' hs'
    rcases List.mem_cons.mp ha' with rfl | hmem
    · simp
    · simpa using Nat.le_of_lt ((List.pairwise_cons.mp hs').1 a hmem)

theorem filter_range_headD {n : ℕ} {p : ℕ → Bool} (hn : 0 < n)
    (hp : p 0 = true) : ((List.range n).filter p).headD 0 = 0 := by
  obtain ⟨m, rfl⟩ : ∃ m, n = m + 1 := ⟨n - 1, (Nat.succ_pred_eq_of_pos hn).symm⟩
  rw [List.range_succ_eq_map, List.filter_cons_of_pos hp]
  simp

theorem filter_range_revHeadD {n : ℕ} {p : ℕ → Bool} (hn : 0 < n)
    (hp : p (n - 1) = true) :
    ((List.range n).filter p).reverse.headD 0 = n - 1 := by
  obtain ⟨m, rfl⟩ : ∃ m, n = m + 1 := ⟨n - 1, (Nat.succ_pred_eq_of_pos hn).symm⟩
  rw [List.range_succ, List.filter_append, List.reverse_append]
  have : (m + 1) - 1 = m := rfl
  rw [this, List.filter_cons_of_pos (by simpa using hp)]
  simp

theorem trim_eq_crop {img : Img} (hr : trimRows img ≠ [])
    (hc : trimCols img ≠ []) :
    trim img = crop ((trimCols img).headD 0) ((trimRows img).headD 0)
      ((trimCols img).reverse.headD 0 + 1)
      ((trimRows img).reverse.headD 0 + 1) img := by
  unfold trim
  rw [if_neg]
  simp [List.isEmpty_iff, hr, hc]

theorem trim_of_noWhiteBorder {img : Img} (hb : noWhiteBorder img) :
    ImgEq (trim img) img := by
  obtain ⟨hw, hh, hr0, hrl, hc0, hcl⟩ := hb
  have hrne : trimRows img ≠ [] := by
    intro hnil
    have : (0 : ℕ) ∈ trimRows img := mem_trimRows.mpr ⟨hh, hr0⟩
    rw [hnil] at this; cases this
  have hcne : trimCols img ≠ [] := by
    intro hnil
    have : (0 : ℕ) ∈ trimCols img := mem_trimCols.mpr ⟨hw, hc0⟩
    rw [hnil] at this; cases this
  have hrh : (trimRows img).headD 0 = 0 := filter_range_headD hh hr0
  have hch : (trimCols img).headD 0 = 0 := filter_range_headD hw hc0
  have hrl' : (trimRows img).reverse.headD 0 = img.h - 1 :=
    filter_range_revHeadD hh hrl
  have hcl' : (trimCols img).reverse.headD 0 = img.w - 1 :=
    filter_range_revHeadD hw hcl
  rw [trim_eq_crop hrne hcne, hrh, hch, hrl', hcl']
  refine ⟨?_, ?_, ?_⟩
  · simp only [crop_w]
    omega
  · simp only [crop_h]
    omega
  · intro x _ y _
    simp

theorem trim_of_allWhite {img : Img} (hall : allWhite img) :
    trim img = img := by
  have hrows : trimRows img = [] := by
    unfold trimRows
    rw [List.filter_eq_nil_iff]
    intro y hy
    intro hcontra
    obtain ⟨x, hx, hwpx⟩ := rowHasInk_iff.mp hcontra
    rw [hall x hx y (List.mem_range.mp hy)] at hwpx
    simp [isWhite] at hwpx
  unfold trim
  rw [hrows]
  simp

theorem noWhiteBorder_trim {img : Img} (hr : trimRows img ≠ [])
    (hc : trimCols img ≠ []) : noWhiteBorder (trim img) := by
  have hsr := filter_range_sorted img.h (fun y => rowHasInk img y)
  have hsc := filter_range_sorted img.w (fun x => colHasInk img x)
  have hsr' : (trimRows img).Pairwise (· < ·) := hsr
  have hsc' : (trimCols img).Pairwise (· < ·) := hsc
  set t := (trimRows img).headD 0 with ht
  set b := (trimRows img).reverse.headD 0 with hbdef
  set l := (trimCols img).headD 0 with hl
  set r := (trimCols img).reverse.headD 0 with hrdef
  have htmem : t ∈ trimRows img := headD_mem hr
  have hbmem : b ∈ trimRows img := revHeadD_mem hr
  have hlmem : l ∈ trimCols img := headD_mem hc
  have hrmem : r ∈ trimCols img := revHeadD_mem hc
  obtain ⟨hth, htink⟩ := mem_trimRows.mp htmem
  obtain ⟨hbh, hbink⟩ := mem_trimRows.mp hbmem
  obtain ⟨hlw, hlink⟩ := mem_trimCols.mp hlmem
  obtain ⟨hrw, hrink⟩ := mem_trimCols.mp hrmem
  have htb : t ≤ b := sorted_headD_le hsr' hbmem
  have hlr : l ≤ r := sorted_headD_le hsc' hrmem
  -- every ink pixel lies inside the bounding box
  have colBound : ∀ x y, x < img.w → y < img.h →
      isWhite (img.px x y) = false → l ≤ x ∧ x ≤ r := by
    intro x y hx hy hink
    have hxmem : x ∈ trimCols img :=
      mem_trimCols.mpr ⟨hx, colHasInk_iff.mpr ⟨y, hy, hink⟩⟩
    exact ⟨sorted_headD_le hsc' hxmem, sorted_le_revHeadD hsc' hxmem⟩
  have rowBound : ∀ x y, x < img.w → y < img.h →
      isWhite (img.px x y) = false → t ≤ y ∧ y ≤ b := by
    intro x y hx hy hink
    have hymem : y ∈ trimRows img :=
      mem_trimRows.mpr ⟨hy, rowHasInk_iff.mpr ⟨x, hx, hink⟩⟩
    exact ⟨sorted_headD_le hsr' hymem, sorted_le_revHeadD hsr' hymem⟩
  rw [trim_eq_crop hr hc, ← ht, ← hbdef, ← hl, ← hrdef]
  refine ⟨?_, ?_, ?_, ?_, ?_, ?_⟩
  · simpa using Nat.lt_succ_of_le hlr
  · simpa using Nat.lt_succ_of_le htb
  · -- top row of the cropped image has ink, witnessed by the ink of row t
    obtain ⟨x, hx, hink⟩ := rowHasInk_iff.mp htink
    obtain ⟨hlx, hxr⟩ := colBound x t hx hth hink
    refine rowHasInk_iff.mpr ⟨x - l, ?_, ?_⟩
    · simp only [crop_w]
      omega
    · simpa [Nat.add_sub_cancel' hlx] using hink
  · -- bottom row of the cropped image has ink, witnessed by row b
    obtain ⟨x, hx, hink⟩ := rowHasInk_iff.mp hbink
    obtain ⟨hlx, hxr⟩ := colBound x b hx hbh hink
    have hhh : (b + 1 - t) - 1 = b - t := by omega
    refine rowHasInk_iff.mpr ⟨x - l, ?_, ?_⟩
    · simp only [crop_w]
      omega
    · rw [crop_h, hhh, crop_px, Nat.add_sub_cancel' hlx,
        Nat.add_sub_cancel' htb]
      exact hink
  · -- left column of the cropped image has ink, witnessed by column l
    obtain ⟨y, hy, hink⟩ := colHasInk_iff.mp hlink
    obtain ⟨hty, hyb⟩ := rowBound l y hlw hy hink
    refine colHasInk_iff.mpr ⟨y - t, ?_, ?_⟩
    · simp only [crop_h]
      omega
    · simpa [Nat.add_sub_cancel' hty] using hink
  · -- right column of the cropped image has ink, witnessed by column r
    obtain ⟨y, hy, hink⟩ := colHasInk_iff.mp hrink
    obtain ⟨hty, hyb⟩ := rowBound r y hrw hy hink
    have hww : (r + 1 - l) - 1 = r - l := by omega
    refine colHasInk_iff.mpr ⟨y - t, ?_, ?_⟩
    · simp only [crop_h]
      omega
    · rw [crop_w, hww, crop_px, Nat.add_sub_cancel' hlr,
        Nat.add_sub_cancel' hty]
      exact hink

/-- C8: the Bounding-Box Trimmer is idempotent: trimming twice equals
trimming once in size and pixel content; an image with no pure-white
border row or column is returned identical in pixel content and size;
an all-white image is returned unchanged. -/
theorem c8_trim_idempotent (img : Img) :
    ImgEq (trim (trim img)) (trim img) ∧
      (noWhiteBorder img → ImgEq (trim img) img) ∧
      (allWhite img → trim img = img) := by
  refine ⟨?_, fun hb => trim_of_noWhiteBorder hb, fun ha => trim_of_allWhite ha⟩
  by_cases hr : trimRows img = []
  · have : trim img = img := by
      unfold trim
      rw [hr]
      simp
    rw [this]
    by_cases hr2 : trimRows img = []
    · have h2 : trim img = img := by
        unfold trim; rw [hr2]; simp
      rw [h2]
      exact ⟨rfl, rfl, fun x _ y _ => rfl⟩
    · exact absurd hr hr2
  · by_cases hc : trimCols img = []
    · have : trim img = img := by
        unfold trim
        rw [hc]
        simp
      rw [this, this]
      exact ⟨rfl, rfl, fun x _ y _ => rfl⟩
    · exact trim_of_noWhiteBorder (noWhiteBorder_trim hr hc)

/-- A concrete 1-by-1 black image: no white border at all. -/
def imgBlack : Img := { w := 1, h := 1, px := fun _ _ => (0, 0, 0) }

/-- A concrete 1-by-1 white image. -/
def imgWhite : Img := { w := 1, h := 1, px := fun _ _ => (255, 255, 255) }

/-- Witness for C8: the hypotheses of the conditional parts are satisfiable
at concrete images. -/
theorem c8_trim_idempotent_witness :
    ImgEq (trim imgBlack) imgBlack ∧ trim imgWhite = imgWhite :=
  ⟨(c8_trim_idempotent imgBlack).2.1 (by
      refine ⟨Nat.one_pos, Nat.one_pos, ?_, ?_, ?_, ?_⟩ <;> decide),
   (c8_trim_idempotent imgWhite).2.2 (by
      intro x _ y _
      rfl)⟩

/-! Projection Segmenter -/

/-- PIL luminance conversion (mode L), ITU-R 601 with integer truncation. -/
def grayOf (p : Pix) : ℕ := (299 * p.1 + 587 * p.2.1 + 114 * p.2.2) / 1000

/-- Vertical ink projection: for each column, the count of pixels whose
brightness is strictly below 32 (the count of zeros of the binarized
image along axis 0). -/
def vsum (img : Img) : List ℕ :=
  (List.range img.w).map fun x =>
    ((List.range img.h).filter fun y => decide (grayOf (img.px x y) < 32)).length

/-- Column scan of _segment_letters_by_projection: x is the index of the
next column, the option holds the start of the currently open run. -/
def scanAux : List ℕ → ℕ → Option ℕ → List (ℕ × ℕ)
  | [], _, none => []
  | [], x, some s => if 5 ≤ x - s then [(s, x)] else []
  | c :: v, x, none =>
    if 0 < c then scanAux v (x + 1) (some x) else scanAux v (x + 1) none
  | c :: v, x, some s =>
    if 0 < c then scanAux v (x + 1) (some s)
    else if 5 ≤ x - s then (s, x) :: scanAux v (x + 1) none
    else scanAux v (x + 1) none

/-- Column intervals produced by the projection scan. -/
def segmentsOf (v : List ℕ) : List (ℕ × ℕ) := scanAux v 0 none

/-- Embedding of _segment_letters_by_projection: each accepted interval
is cropped full-height from the original (non-binarized) image. -/
def segment_letters_by_projection (img : Img) : List Img :=
  (segmentsOf (vsum img)).map fun p => crop p.1 0 p.2 img.h img

/-- Maximal run of consecutive positive columns: every column in the
interval is positive and each boundary is the image edge or a zero
column. -/
def isRun (v : List ℕ) (a b : ℕ) : Prop :=
  a < b ∧ b ≤ v.length ∧ (∀ i, i < b → a ≤ i → 0 < v.getD i 0) ∧
    (a = 0 ∨ v.getD (a - 1) 0 = 0) ∧ (b = v.length ∨ v.getD b 0 = 0)

/-- Scanner-state invariant: with no open run the previous column (if
any) was zero; with an open run started at s, columns s..x-1 are
positive and s has a closed left boundary. -/
def StInv (V : List ℕ) (x : ℕ) : Option ℕ → Prop
  | none => x = 0 ∨ V.getD (x - 1) 0 = 0
  | some s => s < x ∧ (∀ i, i < x → s ≤ i → 0 < V.getD i 0) ∧
      (s = 0 ∨ V.getD (s - 1) 0 = 0)

/-- Lower bound on the start of any interval the scanner can still emit. -/
def stLB (x : ℕ) : Option ℕ → ℕ
  | none => x
  | some s => s

instance isRun_decidable (v : List ℕ) (a b : ℕ) : Decidable (isRun v a b) := by
  unfold isRun
  infer_instance

theorem scanAux_mem (V : List ℕ) :
    ∀ (v : List ℕ) (x : ℕ) (st : Option ℕ), v = V.drop x → StInv V x st →
      ∀ a b, ((a, b) ∈ scanAux v x st ↔
        isRun V a b ∧ 5 ≤ b - a ∧ stLB x st ≤ a) := by
  intro v
  induction v with
  | nil =>
    intro x st hv hinv a b
    have hlen : V.length ≤ x := List.drop_eq_nil_iff.mp hv.symm
    cases st with
    | none =>
      simp only [scanAux, List.not_mem_nil, false_iff]
      rintro ⟨⟨hab, hbl, -, -, -⟩, -, hxa⟩
      simp only [stLB] at hxa
      omega
    | some s =>
      obtain ⟨hsx, hpos, hsl⟩ := hinv
      have hxlen : x = V.length := by
        by_contra hne
        have hlt : V.length < x := lt_of_le_of_ne hlen fun he => hne he.symm
        have h1 : 0 < V.getD (x - 1) 0 := hpos (x - 1) (by omega) (by omega)
        have h2 : V.getD (x - 1) 0 = 0 := by
          rw [List.getD_eq_getElem?_getD, List.getElem?_eq_none (by omega)]
          rfl
        omega
      constructor
      · intro hmem
        simp only [scanAux] at hmem
        by_cases hwid : 5 ≤ x - s
        · rw [if_pos hwid] at hmem
          simp only [List.mem_singleton, Prod.mk.injEq] at hmem
          obtain ⟨rfl, rfl⟩ := hmem
          refine ⟨⟨hsx, by omega, ?_, hsl, Or.inl hxlen⟩, by omega, le_refl _⟩
          intro i hib hsi
          exact hpos i (by omega) hsi
        · rw [if_neg hwid] at hmem
          cases hmem
      · rintro ⟨⟨hab, hbl, hrun, hlbd, hrbd⟩, hwid, hsa⟩
        have has : a = s := by
          by_contra hne
          have hsa' : s < a := lt_of_le_of_ne hsa fun he => hne he.symm
          have h1 : 0 < V.getD (a - 1) 0 := hpos (a - 1) (by omega) (by omega)
          rcases hlbd with h0 | hz
          · omega
          · omega
        have hbx : b = x := by
          by_contra hne
          have hblt : b < x := by omega
          have h1 : 0 < V.getD b 0 := hpos b (by omega) (by omega)
          rcases hrbd with h0 | hz
          · omega
          · omega
        subst has
        subst hbx
        simp only [scanAux]
        rw [if_pos (by omega)]
        simp
  | cons c v ih =>
    intro x st hv hinv a b
    have hxlt : x < V.length := by
      by_contra hge
      rw [List.drop_eq_nil_of_le (by omega)] at hv
      cases hv
    have hcv : V.drop x = V[x] :: V.drop (x + 1) := List.drop_eq_getElem_cons hxlt
    rw [hcv] at hv
    injection hv with hc hv'
    have hgd : V.getD x 0 = c := by
      rw [List.getD_eq_getElem?_getD, List.getElem?_eq_getElem hxlt]
      exact hc.symm
    cases st with
    | none =>
      simp only [scanAux]
      by_cases h0 : 0 < c
      · rw [if_pos h0]
        have hinv' : StInv V (x + 1) (some x) := by
          refine ⟨Nat.lt_succ_self x, ?_, hinv⟩
          intro i hi hxi
          have : i = x := by omega
          subst this
          omega
        exact ih (x + 1) (some x) hv' hinv' a b
      · rw [if_neg h0]
        have hc0 : V.getD x 0 = 0 := by omega
        have hinv' : StInv V (x + 1) none := Or.inr (by simpa using hc0)
        rw [ih (x + 1) none hv' hinv' a b]
        constructor
        · rintro ⟨h1, h2, h3⟩
          exact ⟨h1, h2, by simpa [stLB] using Nat.le_of_succ_le h3⟩
        · rintro ⟨⟨hab, hbl, hrun, hlbd, hrbd⟩, hwid, hxa⟩
          refine ⟨⟨hab, hbl, hrun, hlbd, hrbd⟩, hwid, ?_⟩
          have hane : a ≠ x := by
            intro he
            subst he
            have := hrun a (by omega) (le_refl a)
            omega
          simp only [stLB] at hxa ⊢
          omega
    | some s =>
      obtain ⟨hsx, hpos, hsl⟩ := hinv
      simp only [scanAux]
      by_cases h0 : 0 < c
      · rw [if_pos h0]
        have hinv' : StInv V (x + 1) (some s) := by
          refine ⟨by omega, ?_, hsl⟩
          intro i hi hsi
          rcases Nat.lt_or_ge i x with hix | hix
          · exact hpos i hix hsi
          · have : i = x := by omega
            subst this
            omega
        exact ih (x + 1) (some s) hv' hinv' a b
      · rw [if_neg h0]
        have hc0 : V.getD x 0 = 0 := by omega
        have hinv' : StInv V (x + 1) none := Or.inr (by simpa using hc0)
        have hSx : isRun V s x := by
          refine ⟨hsx, by omega, ?_, hsl, Or.inr hc0⟩
          intro i hi hsi
          exact hpos i hi hsi
        by_cases hwid : 5 ≤ x - s
        · rw [if_pos hwid]
          rw [List.mem_cons, ih (x + 1) none hv' hinv' a b]
          constructor
          · rintro (heq | ⟨h1, h2, h3⟩)
            · rw [Prod.mk.injEq] at heq
              obtain ⟨rfl, rfl⟩ := heq
              exact ⟨hSx, by omega, le_refl _⟩
            · exact ⟨h1, h2, by simp only [stLB] at h3 ⊢; omega⟩
          · rintro ⟨⟨hab, hbl, hrun, hlbd, hrbd⟩, hwid', hsa⟩
            simp only [stLB] at hsa
            rcases Nat.eq_or_lt_of_le hsa with rfl | hsa'
            · left
              rw [Prod.mk.injEq]
              refine ⟨rfl, ?_⟩
              by_contra hbne
              rcases Nat.lt_or_ge b x with hbx | hbx
              · have h1 : 0 < V.getD b 0 := hpos b hbx (by omega)
                rcases hrbd with h2 | h2
                · omega
                · omega
              · have hbgt : x < b := by omega
                have := hrun x hbgt (by omega)
                omega
            · right
              have hax : x + 1 ≤ a := by
                by_contra hcon
                have hax' : a ≤ x := by omega
                have h1 : 0 < V.getD (a - 1) 0 := hpos (a - 1) (by omega) (by omega)
                rcases hlbd with h2 | h2
                · omega
                · omega
              exact ⟨⟨hab, hbl, hrun, hlbd, hrbd⟩, hwid', by
                simp only [stLB]; omega⟩
        · rw [if_neg hwid]
          rw [ih (x + 1) none hv' hinv' a b]
          constructor
          · rintro ⟨h1, h2, h3⟩
            exact ⟨h1, h2, by simp only [stLB] at h3 ⊢; omega⟩
          · rintro ⟨⟨hab, hbl, hrun, hlbd, hrbd⟩, hwid', hsa⟩
            simp only [stLB] at hsa
            rcases Nat.eq_or_lt_of_le hsa with rfl | hsa'
            · exfalso
              have hbx : b = x := by
                by_contra hbne
                rcases Nat.lt_or_ge b x with hbx | hbx
                · have h1 : 0 < V.getD b 0 := hpos b hbx (by omega)
                  rcases hrbd with h2 | h2
                  · omega
                  · omega
                · have := hrun x (by omega) (by omega)
                  omega
              omega
            · have hax : x + 1 ≤ a := by
                by_contra hcon
                have hax' : a ≤ x := by omega
                have h1 : 0 < V.getD (a - 1) 0 := hpos (a - 1) (by omega) (by omega)
                rcases hlbd with h2 | h2
                · omega
                · omega
              exact ⟨⟨hab, hbl, hrun, hlbd, hrbd⟩, hwid', by
                simp only [stLB]; omega⟩

theorem scanAux_pairwise (V : List ℕ) :
    ∀ (v : List ℕ) (x : ℕ) (st : Option ℕ), v = V.drop x → StInv V x st →
      (scanAux v x st).Pairwise
        (fun p q => p.2 < q.1 ∧ V.getD p.2 0 = 0) := by
  intro v
  induction v with
  | nil =>
    intro x st hv hinv
    cases st with
    | none => simp [scanAux]
    | some s =>
      simp only [scanAux]
      by_cases hwid : 5 ≤ x - s
      · rw [if_pos hwid]
        simp
      · rw [if_neg hwid]
        simp
  | cons c v ih =>
    intro x st hv hinv
    have hxlt : x < V.length := by
      by_contra hge
      rw [List.drop_eq_nil_of_le (by omega)] at hv
      cases hv
    have hcv : V.drop x = V[x] :: V.drop (x + 1) := List.drop_eq_getElem_cons hxlt
    rw [hcv] at hv
    injection hv with hc hv'
    have hgd : V.getD x 0 = c := by
      rw [List.getD_eq_getElem?_getD, List.getElem?_eq_getElem hxlt]
      exact hc.symm
    cases st with
    | none =>
      simp only [scanAux]
      by_cases h0 : 0 < c
      · rw [if_pos h0]
        have hinv' : StInv V (x + 1) (some x) := by
          refine ⟨Nat.lt_succ_self x, ?_, hinv⟩
          intro i hi hxi
          have : i = x := by omega
          subst this
          omega
        exact ih (x + 1) (some x) hv' hinv'
      · rw [if_neg h0]
        exact ih (x + 1) none hv' (Or.inr (by simpa using (by omega : V.getD x 0 = 0)))
    | some s =>
      obtain ⟨hsx, hpos, hsl⟩ := hinv
      simp only [scanAux]
      by_cases h0 : 0 < c
      · rw [if_pos h0]
        have hinv' : StInv V (x + 1) (some s) := by
          refine ⟨by omega, ?_, hsl⟩
          intro i hi hsi
          rcases Nat.lt_or_ge i x with hix | hix
          · exact hpos i hix hsi
          · have : i = x := by omega
            subst this
            omega
        exact ih (x + 1) (some s) hv' hinv'
      · rw [if_neg h0]
        have hc0 : V.getD x 0 = 0 := by omega
        have hinv' : StInv V (x + 1) none := Or.inr (by simpa using hc0)
        by_cases hwid : 5 ≤ x - s
        · rw [if_pos hwid]
          rw [List.pairwise_cons]
          refine ⟨?_, ih (x + 1) none hv' hinv'⟩
          intro q hq
          have hmem := (scanAux_mem V v (x + 1) none hv' hinv' q.1 q.2).mp
            (by rw [Prod.mk.eta]; exact hq)
          obtain ⟨-, -, hlb⟩ := hmem
          simp only [stLB] at hlb
          exact ⟨by omega, hc0⟩
        · rw [if_neg hwid]
          exact ih (x + 1) none hv' hinv'

theorem segmentsOf_mem (v : List ℕ) (a b : ℕ) :
    (a, b) ∈ segmentsOf v ↔ isRun v a b ∧ 5 ≤ b - a := by
  have := scanAux_mem v v 0 none (by simp) (Or.inl rfl) a b
  simpa [segmentsOf, stLB] using this

theorem segmentsOf_pairwise (v : List ℕ) :
    (segmentsOf v).Pairwise (fun p q => p.2 < q.1 ∧ v.getD p.2 0 = 0) :=
  scanAux_pairwise v v 0 none (by simp) (Or.inl rfl)

theorem segmentsOf_lt (v : List ℕ) :
    ∀ p, p ∈ segmentsOf v → p.1 < p.2 := by
  intro p hp
  have := (segmentsOf_mem v p.1 p.2).mp (by rw [Prod.mk.eta]; exact hp)
  exact this.1.1

/-- C10: the column intervals returned by the Projection Segmenter are
nondegenerate, pairwise disjoint and strictly increasing, and any pair
of them is separated by a column with zero ink count (the first
interval's right boundary column). -/
theorem c10_segments_disjoint (v : List ℕ) :
    (∀ p, p ∈ segmentsOf v → p.1 < p.2) ∧
      (segmentsOf v).Pairwise (fun p q => p.2 < q.1 ∧ v.getD p.2 0 = 0) :=
  ⟨segmentsOf_lt v, segmentsOf_pairwise v⟩

/-- A concrete projection with two runs, for the C10 witness. -/
def vTwoRuns : List ℕ := [1, 1, 1, 1, 1, 0, 2, 1, 1, 1, 1]

/-- Witness for C10: on a concrete projection, the first emitted
interval is nondegenerate, and the pairwise separation holds for the
two emitted intervals. -/
theorem c10_segments_disjoint_witness :
    ((0, 5) : ℕ × ℕ).1 < ((0, 5) : ℕ × ℕ).2 ∧
      (segmentsOf vTwoRuns).Pairwise
        (fun p q => p.2 < q.1 ∧ vTwoRuns.getD p.2 0 = 0) :=
  ⟨(c10_segments_disjoint vTwoRuns).1 (0, 5) (by decide),
   (c10_segments_disjoint vTwoRuns).2⟩

/-- C7: the Projection Segmenter crops, full-height from the original
image, exactly the maximal runs of consecutive columns with non-zero
ink count whose width is at least 5 (including a run still open at the
right edge), where a pixel is ink iff its brightness is strictly below
32; segments come in left-to-right column order, and an image with no
qualifying run yields the empty sequence. -/
theorem c7_segmenter (img : Img) :
    segment_letters_by_projection img =
        (segmentsOf (vsum img)).map (fun p => crop p.1 0 p.2 img.h img) ∧
      (∀ a b, ((a, b) ∈ segmentsOf (vsum img) ↔
        isRun (vsum img) a b ∧ 5 ≤ b - a)) ∧
      (∀ x, x < img.w → (0 < (vsum img).getD x 0 ↔
        ∃ y, y < img.h ∧ grayOf (img.px x y) < 32)) ∧
      ((∀ a b, ¬(isRun (vsum img) a b ∧ 5 ≤ b - a)) →
        segmentsOf (vsum img) = []) ∧
      List.Chain' (fun p q : ℕ × ℕ => p.1 < q.1) (segmentsOf (vsum img)) := by
  refine ⟨rfl, segmentsOf_mem (vsum img), ?_, ?_, ?_⟩
  · intro x hx
    have hx' : x < (vsum img).length := by
      simpa [vsum] using hx
    rw [List.getD_eq_getElem?_getD, List.getElem?_eq_getElem hx']
    have : (vsum img)[x] =
        ((List.range img.h).filter fun y =>
          decide (grayOf (img.px x y) < 32)).length := by
      simp [vsum]
    rw [Option.getD_some, this, ← List.countP_eq_length_filter,
      List.countP_pos_iff]
    simp [List.mem_range]
  · intro hnone
    cases hseg : segmentsOf (vsum img) with
    | nil => rfl
    | cons p rest =>
      exfalso
      have hp : p ∈ segmentsOf (vsum img) := by
        rw [hseg]
        exact List.mem_cons_self p rest
      have := (segmentsOf_mem (vsum img) p.1 p.2).mp
        (by rw [Prod.mk.eta]; exact hp)
      exact hnone p.1 p.2 this
  · refine List.Pairwise.chain' ?_
    refine (segmentsOf_pairwise (vsum img)).imp_of_mem ?_
    intro p q hp hq hr
    exact lt_trans (segmentsOf_lt (vsum img) p hp) hr.1

/-- A concrete 5-by-1 black image producing exactly one full-width
segment. -/
def imgSeg : Img := { w := 5, h := 1, px := fun _ _ => (0, 0, 0) }

/-- Witness for C7: on concrete images, a qualifying run is emitted, the
ink characterization holds at a column, and an all-white image yields no
segments. -/
theorem c7_segmenter_witness :
    (0, 5) ∈ segmentsOf (vsum imgSeg) ∧
      0 < (vsum imgSeg).getD 0 0 ∧
      segmentsOf (vsum imgWhite) = [] :=
  ⟨((c7_segmenter imgSeg).2.1 0 5).mpr (by decide),
   ((c7_segmenter imgSeg).2.2.1 0 (by decide)).mpr ⟨0, by decide, by decide⟩,
   (c7_segmenter imgWhite).2.2.2.1 (by
     rintro a b ⟨⟨hab, hbl, hposrun, -, -⟩, -⟩
     have hb1 : b ≤ 1 := by
       simpa [vsum, imgWhite] using hbl
     have := hposrun a (by omega) (le_refl a)
     have ha0 : a = 0 := by omega
     subst ha0
     revert this
     decide)⟩

/-! Assembler -/

/-- Python str.strip: remove leading and trailing whitespace. -/
def pyStrip (s : List Char) : List Char :=
  ((s.dropWhile Char.isWhitespace).reverse.dropWhile Char.isWhitespace).reverse

/-- Python str.replace of a single space by the empty string: remove
every space character. -/
def pyReplaceSpace (s : List Char) : List Char := s.filter fun c => c != ' '

/-- Embedding of the final line of extract_text: join the per-segment
strings, remove embedded spaces, strip leading and trailing whitespace. -/
def assemble (texts : List (List Char)) : List Char :=
  pyStrip (pyReplaceSpace texts.flatten)

theorem filter_join_char (p : Char → Bool) :
    ∀ L : List (List Char),
      L.flatten.filter p = (L.map fun t => t.filter p).flatten := by
  intro L
  induction L with
  | nil => rfl
  | cons t L ih =>
    simp only [List.flatten_cons, List.filter_append, List.map_cons, ih]

/-- C9: the Assembler concatenates the per-segment strings in order,
removes every embedded space and trims leading/trailing whitespace; the
space removal distributes over the parts; in particular the sequence
A, empty, B, space assembles to AB, and the empty sequence yields the
empty string. -/
theorem c9_assembler :
    (∀ texts : List (List Char),
        assemble texts =
          pyStrip ((texts.map fun t => t.filter fun c => c != ' ').flatten)) ∧
      assemble [['A'], [], ['B'], [' ']] = ['A', 'B'] ∧
      assemble ([] : List (List Char)) = [] := by
  refine ⟨?_, by decide, rfl⟩
  intro texts
  unfold assemble pyReplaceSpace
  rw [filter_join_char]

/-! Rotation-Search Recognizer -/

/-- One engine result: a text fragment and its parsed confidence; none
models a confidence value that float() rejects. -/
abbrev RecPair := List Char × Option ℚ

/-- Acceptance of one (text, conf) pair: non-empty trimmed text and a
parseable confidence. -/
def acceptOf (p : RecPair) : Option (List Char × ℚ) :=
  if pyStrip p.1 = [] then none else p.2.map fun c => (pyStrip p.1, c)

/-- Inner pair scan of _recognize_with_rotations: skip pairs whose
trimmed text is blank, skip pairs whose confidence fails to parse, and
stop at the first accepted pair. -/
def scanPairs : List RecPair → Option (List Char × ℚ)
  | [] => none
  | p :: rest =>
    if pyStrip p.1 = [] then scanPairs rest
    else
      match p.2 with
      | none => scanPairs rest
      | some c => some (pyStrip p.1, c)

/-- The fixed rotation angles, in traversal order. -/
def angles : List Int := [-30, -15, 15, 30]

/-- Best-candidate update of the angle loop: strictly greater confidence
replaces the current best. -/
def recStep (best : List Char × ℚ) (found : Option (List Char × ℚ)) :
    List Char × ℚ :=
  match found with
  | none => best
  | some (t, c) => if best.2 < c then (t, c) else best

/-- Embedding of _recognize_with_rotations: the final (best_char,
best_conf) state of the angle loop; the initial state is the empty
string with sentinel confidence -1. -/
def recBest (cap : Int → List RecPair) : List Char × ℚ :=
  angles.foldl (fun best a => recStep best (scanPairs (cap a))) ([], -1)

/-- The string _recognize_with_rotations returns. -/
def recognize_with_rotations (cap : Int → List RecPair) : List Char :=
  (recBest cap).1

/-- The first accepted pair of each angle, in angle order. -/
def cands (cap : Int → List RecPair) : List (List Char × ℚ) :=
  angles.filterMap fun a => scanPairs (cap a)

/-- Plain best-of fold over a candidate list. -/
def bestOf (init : List Char × ℚ) (l : List (List Char × ℚ)) :
    List Char × ℚ :=
  l.foldl (fun b tc => if b.2 < tc.2 then tc else b) init

theorem scanPairs_eq_head : ∀ pairs : List RecPair,
    scanPairs pairs = (pairs.filterMap acceptOf).head? := by
  intro pairs
  induction pairs with
  | nil => rfl
  | cons p rest ih =>
    by_cases hp : pyStrip p.1 = []
    · have ha : acceptOf p = none := by
        unfold acceptOf
        rw [if_pos hp]
      simp only [scanPairs, List.filterMap_cons, ha, if_pos hp]
      exact ih
    · cases hc : p.2 with
      | none =>
        have ha : acceptOf p = none := by
          unfold acceptOf
          rw [if_neg hp, hc]
          rfl
        simp only [scanPairs, List.filterMap_cons, ha, if_neg hp, hc]
        exact ih
      | some c =>
        have ha : acceptOf p = some (pyStrip p.1, c) := by
          unfold acceptOf
          rw [if_neg hp, hc]
          rfl
        simp only [scanPairs, List.filterMap_cons, ha, if_neg hp, hc]
        rfl

theorem scanPairs_some_src {pairs : List RecPair} {r : List Char × ℚ}
    (h : scanPairs pairs = some r) :
    r.1 ≠ [] ∧ ∃ p ∈ pairs, r.1 = pyStrip p.1 ∧ p.2 = some r.2 := by
  induction pairs with
  | nil => cases h
  | cons p rest ih =>
    by_cases hp : pyStrip p.1 = []
    · rw [scanPairs, if_pos hp] at h
      obtain ⟨h1, q, hq, h2⟩ := ih h
      exact ⟨h1, q, List.mem_cons_of_mem p hq, h2⟩
    · cases hc : p.2 with
      | none =>
        rw [scanPairs, if_neg hp, hc] at h
        obtain ⟨h1, q, hq, h2⟩ := ih h
        exact ⟨h1, q, List.mem_cons_of_mem p hq, h2⟩
      | some c =>
        rw [scanPairs, if_neg hp, hc] at h
        have hr : r = (pyStrip p.1, c) := by
          injection h with h
          exact h.symm
        subst hr
        exact ⟨hp, p, List.mem_cons_self p rest, rfl, hc⟩

theorem bestOf_init_le : ∀ (l : List (List Char × ℚ)) (b : List Char × ℚ),
    b.2 ≤ (bestOf b l).2 := by
  intro l
  induction l with
  | nil => intro b; exact le_refl _
  | cons x l ih =>
    intro b
    have hstep : bestOf b (x :: l) = bestOf (if b.2 < x.2 then x else b) l := rfl
    rw [hstep]
    by_cases hbx : b.2 < x.2
    · rw [if_pos hbx]
      exact le_of_lt (lt_of_lt_of_le hbx (ih x))
    · rw [if_neg hbx]
      exact ih b

theorem bestOf_le_of_mem : ∀ (l : List (List Char × ℚ)) (b p : List Char × ℚ),
    p ∈ l → p.2 ≤ (bestOf b l).2 := by
  intro l
  induction l with
  | nil => intro b p hp; cases hp
  | cons x l ih =>
    intro b p hp
    have hstep : bestOf b (x :: l) = bestOf (if b.2 < x.2 then x else b) l := rfl
    rw [hstep]
    rcases List.mem_cons.mp hp with rfl | hmem
    · refine le_trans ?_ (bestOf_init_le l _)
      by_cases hbx : b.2 < p.2
      · rw [if_pos hbx]
      · rw [if_neg hbx]
        exact le_of_not_lt hbx
    · exact ih _ p hmem

theorem bestOf_mem_or : ∀ (l : List (List Char × ℚ)) (b : List Char × ℚ),
    bestOf b l = b ∨ bestOf b l ∈ l := by
  intro l
  induction l with
  | nil => intro b; exact Or.inl rfl
  | cons x l ih =>
    intro b
    have hstep : bestOf b (x :: l) = bestOf (if b.2 < x.2 then x else b) l := rfl
    rw [hstep]
    by_cases hbx : b.2 < x.2
    · rw [if_pos hbx]
      rcases ih x with h | h
      · refine Or.inr ?_
        rw [h]
        exact List.mem_cons_self x l
      · exact Or.inr (List.mem_cons_of_mem x h)
    · rw [if_neg hbx]
      rcases ih b with h | h
      · exact Or.inl h
      · exact Or.inr (List.mem_cons_of_mem x h)

theorem bestOf_split : ∀ (l : List (List Char × ℚ)) (b : List Char × ℚ),
    ∃ pre post, b :: l = pre ++ bestOf b l :: post ∧
      (∀ p ∈ pre, p.2 < (bestOf b l).2) ∧
      (∀ p ∈ post, p.2 ≤ (bestOf b l).2) := by
  intro l
  induction l with
  | nil =>
    intro b
    exact ⟨[], [], rfl, by simp, by simp⟩
  | cons x l ih =>
    intro b
    have hstep : bestOf b (x :: l) = bestOf (if b.2 < x.2 then x else b) l := rfl
    by_cases hbx : b.2 < x.2
    · obtain ⟨pre, post, heq, hpre, hpost⟩ := ih x
      rw [hstep, if_pos hbx]
      refine ⟨b :: pre, post, ?_, ?_, hpost⟩
      · rw [List.cons_append, ← heq]
      · intro p hp
        rcases List.mem_cons.mp hp with rfl | hmem
        · exact lt_of_lt_of_le hbx (bestOf_init_le l x)
        · exact hpre p hmem
    · obtain ⟨pre, post, heq, hpre, hpost⟩ := ih b
      rw [hstep, if_neg hbx]
      cases pre with
      | nil =>
        rw [List.nil_append] at heq
        injection heq with h1 h2
        refine ⟨[], x :: post, ?_, by simp, ?_⟩
        · rw [List.nil_append, ← h1, h2]
        · intro p hp
          rcases List.mem_cons.mp hp with rfl | hmem
          · rw [← h1]
            exact le_of_not_lt hbx
          · exact hpost p hmem
      | cons q pre' =>
        rw [List.cons_append] at heq
        injection heq with h1 h2
        have hqlt : q.2 < (bestOf b l).2 := hpre q (List.mem_cons_self q pre')
        rw [← h1] at hqlt
        refine ⟨b :: x :: pre', post, ?_, ?_, hpost⟩
        · rw [List.cons_append, List.cons_append, ← h2]
        · intro p hp
          rcases List.mem_cons.mp hp with rfl | hp'
          · exact hqlt
          · rcases List.mem_cons.mp hp' with rfl | hmem
            · exact lt_of_le_of_lt (le_of_not_lt hbx) hqlt
            · exact hpre p (List.mem_cons_of_mem q hmem)

theorem foldl_recStep_filterMap (cap : Int → List RecPair) :
    ∀ (l : List Int) (b : List Char × ℚ),
      l.foldl (fun best a => recStep best (scanPairs (cap a))) b =
        bestOf b (l.filterMap fun a => scanPairs (cap a)) := by
  intro l
  induction l with
  | nil => intro b; rfl
  | cons a l ih =>
    intro b
    simp only [List.foldl_cons, List.filterMap_cons]
    cases hs : scanPairs (cap a) with
    | none =>
      exact ih b
    | some tc =>
      obtain ⟨t, c⟩ := tc
      rw [ih _]
      rfl

theorem recBest_eq_bestOf (cap : Int → List RecPair) :
    recBest cap = bestOf ([], -1) (cands cap) :=
  foldl_recStep_filterMap cap angles ([], -1)

/-- Capability returning, at every angle, one accepted pair whose
confidence -2 lies below the sentinel. -/
def capNegTwo : Int → List RecPair := fun _ => [(['A'], some (-2))]

/-- C3 is false as stated: at a concrete capability every angle yields
an accepted pair with character A (so the accepted pair with the
strictly highest confidence carries A), yet the recognizer returns the
empty string, because the accepted confidence -2 never beats the
sentinel -1. -/
theorem c3_recognizer_counterexample :
    recognize_with_rotations capNegTwo = [] ∧
      scanPairs (capNegTwo (-30)) = some (['A'], -2) := by
  constructor
  · decide
  · decide

/-- C3 (amended): per angle, the engine pairs are scanned in order,
pairs with blank trimmed text or unparseable confidence are skipped,
and the first accepted pair is kept; across the sentinel-prefixed
candidate sequence (in angle order -30, -15, 15, 30) the recognizer
returns the character of the earliest entry attaining the strictly
highest confidence, so a real candidate must strictly exceed -1 to be
returned. -/
theorem c3_recognizer_amended (cap : Int → List RecPair) :
    (∀ pairs : List RecPair,
        scanPairs pairs = (pairs.filterMap acceptOf).head?) ∧
      ∃ pre post,
        ([], (-1 : ℚ)) :: cands cap = pre ++ recBest cap :: post ∧
          recognize_with_rotations cap = (recBest cap).1 ∧
          (∀ p ∈ pre, p.2 < (recBest cap).2) ∧
          (∀ p ∈ post, p.2 ≤ (recBest cap).2) := by
  refine ⟨scanPairs_eq_head, ?_⟩
  obtain ⟨pre, post, heq, hpre, hpost⟩ := bestOf_split (cands cap) ([], -1)
  rw [← recBest_eq_bestOf] at heq hpre hpost
  exact ⟨pre, post, heq, rfl, hpre, hpost⟩

/-- Capability whose pair list exercises both skip rules before an
accepted pair. -/
def capSkip : Int → List RecPair :=
  fun _ => [([' '], some 5), (['A'], none), (['B'], some 80)]

/-- Witness for the amended C3 at a concrete capability. -/
theorem c3_recognizer_amended_witness :
    scanPairs (capSkip 15) = ((capSkip 15).filterMap acceptOf).head? ∧
      ∃ pre post,
        ([], (-1 : ℚ)) :: cands capSkip = pre ++ recBest capSkip :: post ∧
          recognize_with_rotations capSkip = (recBest capSkip).1 ∧
          (∀ p ∈ pre, p.2 < (recBest capSkip).2) ∧
          (∀ p ∈ post, p.2 ≤ (recBest capSkip).2) :=
  ⟨(c3_recognizer_amended capSkip).1 (capSkip 15),
   (c3_recognizer_amended capSkip).2⟩

/-- Capability returning, at every angle, one accepted pair with
confidence exactly -1. -/
def capSentinel : Int → List RecPair := fun _ => [(['A'], some (-1))]

/-- C4 is false as stated: a pair with character A and confidence -1 is
accepted at every angle, yet it never replaces the sentinel (strict
comparison with -1) and the recognizer returns the empty string. -/
theorem c4_sentinel_counterexample :
    recognize_with_rotations capSentinel = [] ∧
      scanPairs (capSentinel (-30)) = some (['A'], -1) := by
  constructor
  · decide
  · decide

/-- C4 (amended): an accepted detection replaces the sentinel and forces
a non-empty result as soon as its confidence is strictly above -1. -/
theorem c4_sentinel_amended (cap : Int → List RecPair)
    (h : ∃ a ∈ angles, ∃ t c, scanPairs (cap a) = some (t, c) ∧ -1 < c) :
    -1 < (recBest cap).2 ∧ recognize_with_rotations cap ≠ [] := by
  obtain ⟨a, ha, t, c, hscan, hc⟩ := h
  have hmem : (t, c) ∈ cands cap := List.mem_filterMap.mpr ⟨a, ha, hscan⟩
  have hle : c ≤ (bestOf ([], -1) (cands cap)).2 :=
    bestOf_le_of_mem (cands cap) ([], -1) (t, c) hmem
  have hgt : -1 < (recBest cap).2 := by
    rw [recBest_eq_bestOf]
    exact lt_of_lt_of_le hc hle
  refine ⟨hgt, ?_⟩
  rcases bestOf_mem_or (cands cap) ([], -1) with hinit | hmem2
  · exfalso
    rw [recBest_eq_bestOf, hinit] at hgt
    exact lt_irrefl _ hgt
  · obtain ⟨a2, ha2, hscan2⟩ := List.mem_filterMap.mp hmem2
    unfold recognize_with_rotations
    rw [recBest_eq_bestOf]
    exact (scanPairs_some_src hscan2).1

/-- Capability returning one accepted single-character pair with
confidence 10. -/
def capTen : Int → List RecPair := fun _ => [(['C'], some 10)]

/-- Witness for the amended C4 at a concrete capability. -/
theorem c4_sentinel_amended_witness :
    -1 < (recBest capTen).2 ∧ recognize_with_rotations capTen ≠ [] :=
  c4_sentinel_amended capTen
    ⟨-30, by decide, ['C'], 10, by decide, by norm_num⟩

/-- Capability returning a two-character accepted fragment. -/
def capTwoChars : Int → List RecPair := fun _ => [(['A', 'B'], some 90)]

/-- C5 is false as stated: with a capability returning the fragment AB
at confidence 90, the recognizer returns the two-character string AB,
not a single character or the empty string. -/
theorem c5_single_char_counterexample :
    recognize_with_rotations capTwoChars = ['A', 'B'] ∧
      (recognize_with_rotations capTwoChars).length = 2 := by
  constructor
  · decide
  · decide

/-- C5 (amended): the recognizer returns the empty string or the trimmed
text fragment of the accepted pair of some angle, unmodified; the result
is a single character only when every fragment the capability returns
trims to at most one character. -/
theorem c5_single_char_amended (cap : Int → List RecPair) :
    (recognize_with_rotations cap = [] ∨
        ∃ a ∈ angles, ∃ c,
          scanPairs (cap a) = some (recognize_with_rotations cap, c)) ∧
      ((∀ a ∈ angles, ∀ p ∈ cap a, (pyStrip p.1).length ≤ 1) →
        (recognize_with_rotations cap).length ≤ 1) := by
  have hmain : recognize_with_rotations cap = [] ∨
      ∃ a ∈ angles, ∃ c,
        scanPairs (cap a) = some (recognize_with_rotations cap, c) := by
    unfold recognize_with_rotations
    rw [recBest_eq_bestOf]
    rcases bestOf_mem_or (cands cap) ([], -1) with hinit | hmem
    · left
      rw [hinit]
    · right
      obtain ⟨a, ha, hscan⟩ := List.mem_filterMap.mp hmem
      exact ⟨a, ha, (bestOf ([], -1) (cands cap)).2, by
        rw [Prod.mk.eta]
        exact hscan⟩
  refine ⟨hmain, ?_⟩
  intro hall
  rcases hmain with h | ⟨a, ha, c, hscan⟩
  · rw [h]
    exact Nat.zero_le 1
  · obtain ⟨hne, p, hp, heq, -⟩ := scanPairs_some_src hscan
    have heq' : recognize_with_rotations cap = pyStrip p.1 := heq
    rw [heq']
    exact hall a ha p hp

/-- Witness for the amended C5 at a concrete capability. -/
theorem c5_single_char_amended_witness :
    (recognize_with_rotations capTen).length ≤ 1 :=
  (c5_single_char_amended capTen).2 (by decide)

/-! extract_text error flow -/

/-- Opaque exception values. -/
abbrev Err := ℕ

/-- Embedding of extract_text with each pipeline stage as an abstract
fallible operation: failing to find or open the file and faults raised
while opening or trimming are caught (the try block) and yield the
empty string; segmentation and the per-part recognition loop run
outside the try block, so their faults propagate. -/
def extract_text (openImg : Except Err Img) (trimF : Img → Except Err Img)
    (segF : Img → Except Err (List Img))
    (recF : Img → Except Err (List Char)) : Except Err (List Char) :=
  match openImg.bind trimF with
  | .error _ => .ok []
  | .ok image =>
    match segF image with
    | .error e => .error e
    | .ok parts =>
      match parts.mapM recF with
      | .error e => .error e
      | .ok texts => .ok (assemble texts)

/-- C2 is false as stated: at a concrete well-formed input whose
recognition stage raises, the fault escapes extract_text instead of
being converted to the empty string. -/
theorem c2_no_throw_counterexample :
    extract_text (.ok imgBlack) (fun i => .ok i) (fun i => .ok [i])
      (fun _ => .error 7) = .error 7 := rfl

/-- C2 (amended): faults raised while opening or trimming are caught
and converted to the empty-string result, but faults raised inside
segmentation or recognition propagate out of extract_text; the fully
successful path assembles the per-part results. -/
theorem c2_no_throw_amended (o : Except Err Img) (t : Img → Except Err Img)
    (s : Img → Except Err (List Img)) (r : Img → Except Err (List Char)) :
    (∀ e, o.bind t = .error e → extract_text o t s r = .ok []) ∧
      (∀ img e, o.bind t = .ok img → s img = .error e →
        extract_text o t s r = .error e) ∧
      (∀ img parts e, o.bind t = .ok img → s img = .ok parts →
        parts.mapM r = .error e → extract_text o t s r = .error e) ∧
      (∀ img parts texts, o.bind t = .ok img → s img = .ok parts →
        parts.mapM r = .ok texts →
        extract_text o t s r = .ok (assemble texts)) := by
  refine ⟨?_, ?_, ?_, ?_⟩
  · intro e he
    unfold extract_text
    rw [he]
  · intro img e ho hs
    unfold extract_text
    simp only [ho, hs]
  · intro img parts e ho hs hm
    unfold extract_text
    simp only [ho, hs, hm]
  · intro img parts texts ho hs hm
    unfold extract_text
    simp only [ho, hs, hm]

/-- Witness for the amended C2: each branch exercised at concrete
stage behaviors. -/
theorem c2_no_throw_amended_witness :
    extract_text (.error 3) (fun i => .ok i) (fun i => .ok [i])
        (fun _ => .ok ['A']) = .ok [] ∧
      extract_text (.ok imgBlack) (fun i => .ok i) (fun _ => .error 5)
        (fun _ => .ok ['A']) = .error 5 ∧
      extract_text (.ok imgBlack) (fun i => .ok i) (fun i => .ok [i])
        (fun _ => .ok ['A']) = .ok (assemble [['A']]) :=
  ⟨(c2_no_throw_amended (.error 3) (fun i => .ok i) (fun i => .ok [i])
      (fun _ => .ok ['A'])).1 3 rfl,
   (c2_no_throw_amended (.ok imgBlack) (fun i => .ok i) (fun _ => .error 5)
      (fun _ => .ok ['A'])).2.1 imgBlack 5 rfl rfl,
   (c2_no_throw_amended (.ok imgBlack) (fun i => .ok i) (fun i => .ok [i])
      (fun _ => .ok ['A'])).2.2.2 imgBlack [imgBlack] [['A']] rfl rfl rfl⟩

/-! Solve-Retry Controller -/

/-- What one attempt of _solve_captcha observes from the page: whether a
fault interrupts the attempt, whether the captcha image is found within
the wait, the text the extractor returns, whether the refresh control
exists, and whether the input field is still present after submitting. -/
structure Obs where
  fault : Bool
  present : Bool
  text : List Char
  refreshFound : Bool
  stillThere : Bool
deriving DecidableEq

/-- What one attempt did: the submitted text, if any, and the loop
control outcome (some b: return b; none: continue with the next
attempt). -/
structure StepOut where
  submitted : Option (List Char)
  result : Option Bool
deriving DecidableEq

/-- Keep only alphanumeric characters, as the scraper does with the
extracted text. -/
def alnumOnly (s : List Char) : List Char := s.filter fun c => c.isAlphanum

/-- One iteration of the _solve_captcha loop.  A fault is caught by the
outer except: it ends the session with failure only on the last
attempt.  No captcha found means immediate success.  Empty text with
attempts remaining and a refresh control means refresh and continue
without submitting; otherwise the text (possibly empty) is typed and
submitted, and the attempt succeeds iff the input field disappeared. -/
def solveStep (o : Obs) (attempt maxAttempts : ℕ) : StepOut :=
  if o.fault then
    { submitted := none,
      result := if maxAttempts ≤ attempt then some false else none }
  else if o.present = false then { submitted := none, result := some true }
  else if alnumOnly o.text = [] ∧ attempt < maxAttempts ∧
      o.refreshFound = true then
    { submitted := none, result := none }
  else
    { submitted := some (alnumOnly o.text),
      result := if o.stillThere then none else some true }

/-- The attempt loop of _solve_captcha: fuel counts the remaining
iterations, attempt is the 1-based attempt number; when the loop ends
without returning, the function returns false. -/
def solveGo (env : ℕ → Obs) (maxA : ℕ) : ℕ → ℕ → Bool
  | 0, _ => false
  | fuel + 1, attempt =>
    match (solveStep (env attempt) attempt maxA).result with
    | some b => b
    | none => solveGo env maxA fuel (attempt + 1)

/-- Embedding of _solve_captcha: run attempts 1..maxA. -/
def solve_captcha (env : ℕ → Obs) (maxA : ℕ) : Bool :=
  solveGo env maxA maxA 1

/-- Environment where the captcha is present, the extractor sees only a
space (empty after the alphanumeric filter), no refresh control exists,
and the challenge disappears after the (empty) submission. -/
def envEmptyNoRefresh : ℕ → Obs :=
  fun _ => { fault := false, present := true, text := [' '],
             refreshFound := false, stillThere := false }

/-- C1 is false as stated: with empty recognized text and no refresh
control the claim requires the controller to report failure (Exhausted)
without submitting, but the code falls through, performs the Submitting
step with the empty string, and even returns success when the
challenge then disappears. -/
theorem c1_empty_text_counterexample :
    solve_captcha envEmptyNoRefresh 1 = true ∧
      (solveStep (envEmptyNoRefresh 1) 1 1).submitted = some [] := by
  constructor
  · decide
  · decide

/-- C1 (amended): on a fault-free attempt with the captcha present,
empty recognized text leads to refresh-and-retry (no submission) only
when a refresh control exists and the attempt is not the last;
otherwise the empty text is still typed and submitted and the attempt
is judged by whether the input field disappears; non-empty text is
always submitted. -/
theorem c1_empty_text_amended (o : Obs) (attempt maxA : ℕ)
    (hf : o.fault = false) (hp : o.present = true) :
    (alnumOnly o.text = [] → attempt < maxA → o.refreshFound = true →
        solveStep o attempt maxA = { submitted := none, result := none }) ∧
      (alnumOnly o.text = [] → (maxA ≤ attempt ∨ o.refreshFound = false) →
        (solveStep o attempt maxA).submitted = some [] ∧
          (solveStep o attempt maxA).result =
            (if o.stillThere then none else some true)) ∧
      (alnumOnly o.text ≠ [] →
        (solveStep o attempt maxA).submitted = some (alnumOnly o.text)) := by
  refine ⟨?_, ?_, ?_⟩
  · intro he hlt hr
    simp [solveStep, hf, hp, he, hlt, hr]
  · intro he hcond
    have hnot : ¬(alnumOnly o.text = [] ∧ attempt < maxA ∧
        o.refreshFound = true) := by
      rcases hcond with h | h
      · rintro ⟨-, h2, -⟩
        omega
      · rintro ⟨-, -, h3⟩
        rw [h] at h3
        cases h3
    have hnot2 : ¬(attempt < maxA ∧ o.refreshFound = true) := by
      rcases hcond with h | h
      · rintro ⟨h2, -⟩
        omega
      · rintro ⟨-, h3⟩
        rw [h] at h3
        cases h3
    constructor
    · simp [solveStep, hf, hp, hnot, hnot2, he]
    · simp [solveStep, hf, hp, hnot, hnot2, he]
  · intro hne
    have hnot : ¬(alnumOnly o.text = [] ∧ attempt < maxA ∧
        o.refreshFound = true) := by
      rintro ⟨h1, -, -⟩
      exact hne h1
    simp [solveStep, hf, hp, hnot]

/-- Observation with blank extracted text and an available refresh
control. -/
def obsBlankRefresh : Obs :=
  { fault := false, present := true, text := [' '],
    refreshFound := true, stillThere := true }

/-- Observation with non-empty extracted text. -/
def obsLetter : Obs :=
  { fault := false, present := true, text := ['A'],
    refreshFound := true, stillThere := true }

/-- Witness for the amended C1: all three branches exercised at
concrete observations. -/
theorem c1_empty_text_amended_witness :
    solveStep obsBlankRefresh 1 3 = { submitted := none, result := none } ∧
      (solveStep (envEmptyNoRefresh 1) 1 3).submitted = some [] ∧
      (solveStep obsLetter 1 3).submitted = some ['A'] := by
  refine ⟨?_, ?_, ?_⟩
  · exact (c1_empty_text_amended obsBlankRefresh 1 3 rfl rfl).1
      (by decide) (by decide) rfl
  · exact ((c1_empty_text_amended (envEmptyNoRefresh 1) 1 3 rfl rfl).2.1
      (by decide) (Or.inr rfl)).1
  · have := (c1_empty_text_amended obsLetter 1 3 rfl rfl).2.2 (by decide)
    simpa [alnumOnly, obsLetter] using this

theorem solveGo_congr (env env' : ℕ → Obs) (maxA : ℕ) :
    ∀ (fuel attempt : ℕ),
      (∀ n, attempt ≤ n → n < attempt + fuel → env n = env' n) →
      solveGo env maxA fuel attempt = solveGo env' maxA fuel attempt := by
  intro fuel
  induction fuel with
  | zero => intro attempt _; rfl
  | succ fuel ih =>
    intro attempt hagree
    have hcur : env attempt = env' attempt :=
      hagree attempt (le_refl _) (by omega)
    simp only [solveGo, hcur]
    cases (solveStep (env' attempt) attempt maxA).result with
    | some b => rfl
    | none =>
      exact ih (attempt + 1) fun n h1 h2 => hagree n (by omega) (by omega)

theorem solveGo_persistent_false (env : ℕ → Obs) (maxA : ℕ) :
    ∀ (fuel attempt : ℕ),
      (∀ n, attempt ≤ n → n < attempt + fuel →
        (env n).fault = false ∧ (env n).present = true ∧
          (env n).stillThere = true) →
      solveGo env maxA fuel attempt = false := by
  intro fuel
  induction fuel with
  | zero => intro attempt _; rfl
  | succ fuel ih =>
    intro attempt hobs
    obtain ⟨hf, hp, hs⟩ := hobs attempt (le_refl _) (by omega)
    have hres : (solveStep (env attempt) attempt maxA).result = none := by
      unfold solveStep
      rw [hf, hp, hs]
      by_cases hcase : alnumOnly (env attempt).text = [] ∧
          attempt < maxA ∧ (env attempt).refreshFound = true
      · simp [hcase]
      · simp [hcase]
    simp only [solveGo, hres]
    exact ih (attempt + 1) fun n h1 h2 => hobs n (by omega) (by omega)

/-- C6: against a challenge that never disappears, a controller with
max_attempts = 3 runs exactly 3 cycles and reports failure: the result
is false, and it depends only on the observations of attempts 1..3, so
a 4th cycle is never started. -/
theorem c6_retry_bound :
    (∀ env : ℕ → Obs,
        (∀ n, 1 ≤ n → n ≤ 3 → (env n).fault = false ∧
          (env n).present = true ∧ (env n).stillThere = true) →
        solve_captcha env 3 = false) ∧
      (∀ env env' : ℕ → Obs, (∀ n, 1 ≤ n → n ≤ 3 → env n = env' n) →
        solve_captcha env 3 = solve_captcha env' 3) := by
  constructor
  · intro env hobs
    exact solveGo_persistent_false env 3 3 1 fun n h1 h2 =>
      hobs n h1 (by omega)
  · intro env env' hagree
    exact solveGo_congr env env' 3 3 1 fun n h1 h2 =>
      hagree n h1 (by omega)

/-- Environment where the captcha is always present and never
disappears after submission. -/
def envPersistent : ℕ → Obs :=
  fun _ => { fault := false, present := true, text := ['X'],
             refreshFound := false, stillThere := true }

/-- Witness for C6 at a concrete persistent-challenge environment. -/
theorem c6_retry_bound_witness :
    solve_captcha envPersistent 3 = false ∧
      solve_captcha envPersistent 3 = solve_captcha envPersistent 3 :=
  ⟨(c6_retry_bound).1 envPersistent (by intro n h1 h2; exact ⟨rfl, rfl, rfl⟩),
   (c6_retry_bound).2 envPersistent envPersistent fun n h1 h2 => rfl⟩

end PFA
